import Mathlib

/-!
Verification of `pyemu/utils/geostats.py`.

The Python source is shallowly embedded: floating point numbers are modelled
as real numbers (the specification allows divergence only up to floating
point reassociation), `np.NaN` results are modelled with `Option`
(`none` = NaN), and raised exceptions are modelled with `Except Unit`.
`np.linalg.solve` is modelled as an abstract `LinSolver`: a function that
either returns a solution vector of the same length as the right hand side
(np.linalg.solve always returns an array shaped like its rhs argument) or
fails (raises `LinAlgError` on a singular matrix).
-/

open scoped Classical

/-- geostats.py line 21: `EPSILON = 1.0e-7`. -/
noncomputable def EPSILON : ℝ := 1e-7

/-- The three concrete `Vario2d` subclasses: `SphVario` (vartype 1),
`ExpVario` (vartype 2), `GauVario` (vartype 3). -/
inductive VarioType where
  | sph : VarioType
  | exp : VarioType
  | gau : VarioType
deriving DecidableEq

/-- A `Vario2d` instance: contribution, range `a`, anisotropy, bearing,
plus the subclass tag.  (`name` and `epsilon` fields are irrelevant to the
claims and omitted.) -/
structure Vario2d where
  vtype : VarioType
  contribution : ℝ
  a : ℝ
  anisotropy : ℝ
  bearing : ℝ

/-- `Vario2d.bearing_rads`: `(pi / 180) * (90 - bearing)`. -/
noncomputable def Vario2d.bearingRads (v : Vario2d) : ℝ :=
  (Real.pi / 180.0) * (90.0 - v.bearing)

/-- `Vario2d._apply_rotation`: identity when `anisotropy == 1.0`, otherwise
rotate by the rotation coefficients `[cos, sin, -sin, cos]` of
`bearing_rads` and scale the second component by `anisotropy`. -/
noncomputable def Vario2d.applyRot (v : Vario2d) (dx dy : ℝ) : ℝ × ℝ :=
  if v.anisotropy = 1.0 then (dx, dy)
  else
    (dx * Real.cos v.bearingRads + dy * Real.sin v.bearingRads,
     (dx * (-1.0 * Real.sin v.bearingRads) + dy * Real.cos v.bearingRads) * v.anisotropy)

/-- The `_h_function` of each `Vario2d` subclass.
`SphVario`: `contribution * (1 - hh*(1.5 - 0.5*hh*hh))` masked to `0` where
`hh = h / a > 1`; `ExpVario`: `contribution * exp(-1 * h / a)`;
`GauVario`: `contribution * exp(-(h*h) / (a*a))`. -/
noncomputable def Vario2d.hFunction (v : Vario2d) (h : ℝ) : ℝ :=
  match v.vtype with
  | VarioType.sph =>
      let hh := h / v.a
      if hh > 1.0 then 0.0 else v.contribution * (1.0 - hh * (1.5 - 0.5 * hh * hh))
  | VarioType.exp => v.contribution * Real.exp (-1.0 * h / v.a)
  | VarioType.gau => v.contribution * Real.exp (-1.0 * (h * h) / (v.a * v.a))

/-- `Vario2d.covariance(pt0, pt1)`: implemented in the source through
`covariance_matrix` on the two points, reading the off-diagonal entry, i.e.
`h_function` of the rotated separation (the source mask `h[h < 0] = 0`
is included; `sqrt` is nonnegative so it never fires). -/
noncomputable def Vario2d.covariance (v : Vario2d) (pt0 pt1 : ℝ × ℝ) : ℝ :=
  let dx := pt0.1 - pt1.1
  let dy := pt0.2 - pt1.2
  let r := v.applyRot dx dy
  let h := Real.sqrt (r.1 * r.1 + r.2 * r.2)
  v.hFunction (if h < 0.0 then 0.0 else h)

/-- `Vario2d.covariance_points(x0, y0, xother, yother)` at a single other
point: `h_function` of the rotated separation distance (no mask here,
matching the source). -/
noncomputable def Vario2d.covPoint (v : Vario2d) (x0 y0 x1 y1 : ℝ) : ℝ :=
  let r := v.applyRot (x0 - x1) (y0 - y1)
  v.hFunction (Real.sqrt (r.1 * r.1 + r.2 * r.2))

/-- A `GeoStruct`: nugget, ordered list of variograms and the transform flag
(`islog = true` means `transform == "log"`). -/
structure GeoStruct where
  nugget : ℝ
  variograms : List Vario2d
  islog : Bool

/-- `GeoStruct.sill`: starts from the nugget and accumulates each
variogram's contribution (`sill += v.contribution`). -/
noncomputable def GeoStruct.sill (g : GeoStruct) : ℝ :=
  g.variograms.foldl (fun acc v => acc + v.contribution) g.nugget

/-- `GeoStruct.covariance(pt0, pt1)`: starts from the nugget and accumulates
each variogram's covariance (`cov += vario.covariance(pt0, pt1)`). -/
noncomputable def GeoStruct.covariance (g : GeoStruct) (pt0 pt1 : ℝ × ℝ) : ℝ :=
  g.variograms.foldl (fun acc v => acc + v.covariance pt0 pt1) g.nugget

/-- `GeoStruct.covariance_points(x0, y0, xother, yother)`: per other point,
nugget plus the sum of the variogram covariances (the source computes this
vectorized: `cov = zeros + nugget` then `cov += v.covariance_points(...)`). -/
noncomputable def GeoStruct.covariancePoints (g : GeoStruct) (x0 y0 : ℝ)
    (others : List (ℝ × ℝ)) : List ℝ :=
  others.map (fun q => g.variograms.foldl (fun acc v => acc + v.covPoint x0 y0 q.1 q.2) g.nugget)

/-- Rotating a zero offset yields a zero offset in both branches of
`_apply_rotation`. -/
theorem Vario2d.applyRot_zero (v : Vario2d) : v.applyRot 0 0 = (0, 0) := by
  unfold Vario2d.applyRot
  split <;> simp

/-- Each variogram model evaluates to its contribution at zero separation:
`h_function(0) = contribution` for the spherical, exponential and gaussian
types. -/
theorem Vario2d.hFunction_zero (v : Vario2d) : v.hFunction 0 = v.contribution := by
  unfold Vario2d.hFunction
  cases v.vtype with
  | sph =>
      simp only [zero_div]
      rw [if_neg (by norm_num)]
      norm_num
  | exp => norm_num
  | gau => norm_num

/-- A variogram's covariance of a point with itself is its contribution. -/
theorem Vario2d.covariance_self (v : Vario2d) (p : ℝ × ℝ) :
    v.covariance p p = v.contribution := by
  unfold Vario2d.covariance
  simp only [sub_self, Vario2d.applyRot_zero]
  rw [show (0:ℝ) * 0 + 0 * 0 = 0 by ring, Real.sqrt_zero, if_neg (by norm_num)]
  exact v.hFunction_zero

/-- Folding `acc + f v` over a list from two starting accumulators differs
by the difference of the starting accumulators. -/
theorem foldl_add_shift (f : Vario2d → ℝ) :
    ∀ (l : List Vario2d) (x y : ℝ),
      l.foldl (fun acc v => acc + f v) (x + y) =
        x + l.foldl (fun acc v => acc + f v) y := by
  intro l
  induction l with
  | nil => intro x y; rfl
  | cons v vs ih =>
      intro x y
      simp only [List.foldl_cons]
      rw [add_assoc]
      exact ih x (y + f v)

/-- Two pointwise-equal accumulation functions fold equally. -/
theorem foldl_add_congr (f g : Vario2d → ℝ) (hfg : ∀ v, f v = g v) :
    ∀ (l : List Vario2d) (x : ℝ),
      l.foldl (fun acc v => acc + f v) x = l.foldl (fun acc v => acc + g v) x := by
  have hfun : (fun acc v => acc + f v) = (fun acc v => acc + g v) := by
    funext acc v
    rw [hfg]
  intro l x
  rw [hfun]

/-- C9: for every `GeoStruct` (any nugget `>= 0`, any list of
spherical/exponential/gaussian variograms) and every point `p`,
`GeoStruct.covariance(p, p)` equals `GeoStruct.sill`
(`sill = nugget + sum of contributions`). -/
theorem geostruct_covariance_self_eq_sill (g : GeoStruct) (p : ℝ × ℝ)
    (hnug : 0 ≤ g.nugget) : g.covariance p p = g.sill := by
  unfold GeoStruct.covariance GeoStruct.sill
  exact foldl_add_congr _ _ (fun v => v.covariance_self p) g.variograms g.nugget

/-- Concrete instantiation of C9: an exponential-plus-spherical structure
with nugget `0.5` evaluated at the point `(3, 4)`. -/
noncomputable def gsC9 : GeoStruct :=
  ⟨0.5, [⟨VarioType.exp, 1.0, 1000.0, 1.0, 0.0⟩, ⟨VarioType.sph, 0.25, 50.0, 2.0, 45.0⟩], false⟩

/-- Witness for C9 at a concrete structure and point. -/
theorem geostruct_covariance_self_eq_sill_witness :
    0 ≤ gsC9.nugget ∧ gsC9.covariance (3, 4) (3, 4) = gsC9.sill :=
  ⟨by norm_num [gsC9], geostruct_covariance_self_eq_sill gsC9 (3, 4) (by norm_num [gsC9])⟩

/-- A row of `point_data`: name, x, y and zone tag. -/
structure PointRec where
  name : String
  x : ℝ
  y : ℝ
  zone : Int

/-- The state an `OrdinaryKrige` instance carries into `calc_factors`:
its `GeoStruct` and the validated `point_data`. -/
structure OrdinaryKrige where
  geostruct : GeoStruct
  point_data : List PointRec

/-- A row of the dataframe built by `calc_factors`: `inames`, `idist`,
`ifacts` and `err_var` (`none` models `np.NaN`). -/
structure KrigeResult where
  inames : List String
  idist : List ℝ
  ifacts : List ℝ
  err_var : Option ℝ

/-- The per-target default row: empty neighbor lists and NaN error
variance.  In the sequential path this is what a NaN target or a forgiven
solve failure appends; in the parallel path this is the pre-populated slot
value. -/
def nanResult : KrigeResult := ⟨[], [], [], none⟩

/-- `OrdinaryKrige._dist_calcs`: squared distances from the target to every
candidate point, sorted ascending, truncated to the squared search
radius. -/
noncomputable def distCalcs (pts : List PointRec) (ix iy sqradius : ℝ) :
    List (String × ℝ) :=
  let dist := pts.map (fun p => (p.name, (p.x - ix) ^ 2 + (p.y - iy) ^ 2))
  (List.insertionSort (fun a b : String × ℝ => a.2 ≤ b.2) dist).filter
    (fun a => decide (a.2 ≤ sqradius))

/-- `dist.iloc[:maxpts_interp].apply(np.sqrt)`: keep the `maxpts` nearest
candidates and take square roots of the squared distances. -/
noncomputable def truncSqrt (maxpts : ℕ) (dist : List (String × ℝ)) :
    List (String × ℝ) :=
  (dist.take maxpts).map (fun a => (a.1, Real.sqrt a.2))

/-- The pair realizing `dist.min()` / `dist.idxmin()` of a pandas Series:
the first entry attaining the minimal value (`none` on an empty series;
pandas gives NaN there and every NaN comparison is false). -/
noncomputable def serMin : List (String × ℝ) → Option (String × ℝ)
  | [] => none
  | x :: xs => some (xs.foldl (fun acc y => if y.2 < acc.2 then y else acc) x)

/-- Lookup of `self.point_data.loc[name, ["x", "y"]]` (names are unique
after construction, so lookup by name is a function). -/
def OrdinaryKrige.lookupXY (ok : OrdinaryKrige) (nm : String) : ℝ × ℝ :=
  match ok.point_data.find? (fun p => p.name == nm) with
  | some p => (p.x, p.y)
  | none => (0, 0)

/-- One entry of `self.point_cov_df` (built once by
`GeoStruct.covariance_matrix` over `point_data` and then indexed by names):
the diagonal carries nugget plus every contribution, an off-diagonal entry
carries the summed variogram covariances of the two points (the nugget is
only added on the diagonal). -/
noncomputable def OrdinaryKrige.pointCovEntry (ok : OrdinaryKrige) (n1 n2 : String) : ℝ :=
  if n1 = n2 then
    ok.geostruct.variograms.foldl (fun acc v => acc + v.contribution) ok.geostruct.nugget
  else
    let p := ok.lookupXY n1
    let q := ok.lookupXY n2
    ok.geostruct.variograms.foldl (fun acc v => acc + v.covPoint p.1 p.2 q.1 q.2) 0

/-- `OrdinaryKrige._form`: the `(k+1) x (k+1)` kriging matrix — point
covariances bordered by a row and column of ones with a zero in the last
diagonal entry (the unbiasedness block). -/
def formA (pcov : List (List ℝ)) : List (List ℝ) :=
  pcov.map (fun row => row ++ [1.0]) ++ [List.replicate pcov.length 1.0 ++ [0.0]]

/-- `OrdinaryKrige._form`: the right hand side — target-to-point
covariances followed by a one. -/
def formRhs (icov : List ℝ) : List ℝ := icov ++ [1.0]

/-- Abstract model of `np.linalg.solve` (`OrdinaryKrige._solve`): it either
raises (`none`, e.g. `LinAlgError` for a singular matrix) or returns a
solution vector shaped like the right hand side. -/
structure LinSolver where
  solve : List (List ℝ) → List ℝ → Option (List ℝ)
  length_eq : ∀ A b w, solve A b = some w → w.length = b.length

/-- The successful solve branch shared verbatim by the sequential body and
the worker: record the neighbor names, distances and weights `facs[:-1]`,
and `err_var = sill + facs[-1] - sum(facs[:-1] * interp_cov)`. -/
noncomputable def solvedResult (ok : OrdinaryKrige) (dist2 : List (String × ℝ))
    (icov : List ℝ) (facs : List ℝ) : KrigeResult :=
  ⟨dist2.map (fun a => a.1), dist2.map (fun a => a.2), facs.dropLast,
   some (ok.geostruct.sill + facs.getLastD 0 -
     ((facs.dropLast.zip icov).map (fun pr => pr.1 * pr.2)).sum)⟩

/-- The kriging matrix assembled for one target: `_form` applied to the
covariance submatrix `point_cov_df.loc[pt_names, pt_names]` of the selected
neighbors. -/
noncomputable def targetA (ok : OrdinaryKrige) (dist2 : List (String × ℝ)) : List (List ℝ) :=
  formA ((dist2.map (fun a => a.1)).map (fun n1 =>
    (dist2.map (fun a => a.1)).map (fun n2 => ok.pointCovEntry n1 n2)))

/-- The target-to-neighbor covariances (`OrdinaryKrige._cov_points`) for one
target: `geostruct.covariance_points` over the selected neighbors'
coordinates. -/
noncomputable def targetICov (ok : OrdinaryKrige) (ix iy : ℝ)
    (dist2 : List (String × ℝ)) : List ℝ :=
  ok.geostruct.covariancePoints ix iy ((dist2.map (fun a => a.1)).map ok.lookupXY)

/-- The linear-algebra step of `_calc_factors_org` for one target:
extract the point covariance submatrix, the target-to-point covariances,
form the system and solve.  A solve failure is forgiven (NaN row) or
raised depending on `forgive`. -/
noncomputable def seqSolvePath (ok : OrdinaryKrige) (s : LinSolver) (forgive : Bool)
    (ix iy : ℝ) (dist2 : List (String × ℝ)) : Except Unit KrigeResult :=
  match s.solve (targetA ok dist2) (formRhs (targetICov ok ix iy dist2)) with
  | none => if forgive then Except.ok nanResult else Except.error ()
  | some facs => Except.ok (solvedResult ok dist2 (targetICov ok ix iy dist2) facs)

/-- The body of the interpolation loop of `OrdinaryKrige._calc_factors_org`
for one target `(ox, oy)` (`none` components model NaN coordinates):
NaN target, min-neighbor shortfall, exact-match shortcut, then the solve. -/
noncomputable def seqTarget (ok : OrdinaryKrige) (s : LinSolver)
    (minpts maxpts : ℕ) (radius : ℝ) (pts : List PointRec) (forgive : Bool)
    (ox oy : Option ℝ) : Except Unit KrigeResult :=
  match ox, oy with
  | some ix, some iy =>
    let dist := distCalcs pts ix iy (radius ^ 2)
    if dist.length < minpts then
      Except.ok ⟨[], [], [], some ok.geostruct.sill⟩
    else
      let dist2 := truncSqrt maxpts dist
      match serMin dist2 with
      | some m =>
          if m.2 ≤ EPSILON then
            Except.ok ⟨[m.1], [EPSILON], [1.0], some ok.geostruct.nugget⟩
          else seqSolvePath ok s forgive ix iy dist2
      | none => seqSolvePath ok s forgive ix iy dist2
  | _, _ => Except.ok nanResult

/-- The zone restriction of the candidate points performed at the top of
`_calc_factors_org` (and intended in `_worker`). -/
def zonePts (ok : OrdinaryKrige) : Option Int → List PointRec
  | none => ok.point_data
  | some z => ok.point_data.filter (fun p => p.zone == z)

/-- Left-to-right effectful map over `Except Unit`: the loop appends each
target's row and the first raised exception aborts the whole batch. -/
def exceptMapList (f : α → Except Unit β) : List α → Except Unit (List β)
  | [] => Except.ok []
  | a :: as =>
    match f a with
    | Except.error e => Except.error e
    | Except.ok b =>
      match exceptMapList f as with
      | Except.error e => Except.error e
      | Except.ok bs => Except.ok (b :: bs)

/-- `OrdinaryKrige._calc_factors_org`: restrict the candidate points by
zone, then run the per-target loop over all targets. -/
noncomputable def calcFactorsOrg (ok : OrdinaryKrige) (s : LinSolver)
    (minpts maxpts : ℕ) (radius : ℝ) (pt_zone : Option Int) (forgive : Bool)
    (targets : List (Option ℝ × Option ℝ)) : Except Unit (List KrigeResult) :=
  exceptMapList
    (fun t => seqTarget ok s minpts maxpts radius (zonePts ok pt_zone) forgive t.1 t.2)
    targets

/-- The solve step of `OrdinaryKrige._worker` as a slot update: a solve
failure performs no write (the `except` clause just continues, leaving the
pre-populated default), a success writes the same row as the sequential
path. -/
noncomputable def workerSolvePath (ok : OrdinaryKrige) (s : LinSolver)
    (ix iy : ℝ) (dist2 : List (String × ℝ)) : KrigeResult → KrigeResult :=
  match s.solve (targetA ok dist2) (formRhs (targetICov ok ix iy dist2)) with
  | none => id
  | some facs => fun _ => solvedResult ok dist2 (targetICov ok ix iy dist2) facs

/-- The body of the work loop of `OrdinaryKrige._worker` for one popped
target, expressed as an update of that target's result slot: a NaN target
writes nothing, a min-neighbor shortfall writes only `err_var = sill`, the
exact-match shortcut writes the full shortcut row, then the solve.
(`forgive` is not a parameter: `_calc_factors_mp` never passes it to the
worker.) -/
noncomputable def workerUpdate (ok : OrdinaryKrige) (s : LinSolver)
    (minpts maxpts : ℕ) (radius : ℝ) (pts : List PointRec)
    (ox oy : Option ℝ) : KrigeResult → KrigeResult :=
  match ox, oy with
  | some ix, some iy =>
    let dist := distCalcs pts ix iy (radius ^ 2)
    if dist.length < minpts then
      fun old => { old with err_var := some ok.geostruct.sill }
    else
      let dist2 := truncSqrt maxpts dist
      match serMin dist2 with
      | some m =>
          if m.2 ≤ EPSILON then
            fun _ => ⟨[m.1], [EPSILON], [1.0], some ok.geostruct.nugget⟩
          else workerSolvePath ok s ix iy dist2
      | none => workerSolvePath ok s ix iy dist2
  | _, _ => id

/-- Apply `f` to the element at position `n` (the manager-list writes
`inames[idx] = ...` etc. of the worker). -/
def modifyAt (f : α → α) : ℕ → List α → List α
  | _, [] => []
  | 0, x :: xs => f x :: xs
  | n + 1, x :: xs => x :: modifyAt f n xs

/-- `enumerate(zip(x, y))` starting at index `k`. -/
def enumFromQ (k : ℕ) : List α → List (ℕ × α)
  | [] => []
  | a :: as => (k, a) :: enumFromQ (k + 1) as

/-- The drain of the shared work queue.  Each queue entry is popped exactly
once (the pop is lock-protected) and each write touches only the popped
entry's slot, so the interleaving of the workers is irrelevant: the pool is
modelled as one worker draining the queue in order. -/
noncomputable def workerLoop (ok : OrdinaryKrige) (s : LinSolver)
    (minpts maxpts : ℕ) (radius : ℝ) (pts : List PointRec) :
    List (ℕ × (Option ℝ × Option ℝ)) → List KrigeResult → List KrigeResult
  | [], slots => slots
  | (idx, t) :: rest, slots =>
      workerLoop ok s minpts maxpts radius pts rest
        (modifyAt (workerUpdate ok s minpts maxpts radius pts t.1 t.2) idx slots)

/-- `OrdinaryKrige._calc_factors_mp`: pre-populate every slot with the
default row, then run the worker pool.  When `pt_zone` is not `None` every
worker hits `pt_data = self.point_data` inside the static `_worker` — a
`NameError` on the undefined `self` — and dies before popping any target,
so the slots are returned untouched; the parent only joins the processes,
so no exception reaches the caller (hence the plain, non-`Except` return
type).  `forgive` is accepted but never forwarded to the workers. -/
noncomputable def calcFactorsMp (ok : OrdinaryKrige) (s : LinSolver)
    (minpts maxpts : ℕ) (radius : ℝ) (pt_zone : Option Int) (forgive : Bool)
    (targets : List (Option ℝ × Option ℝ)) : List KrigeResult :=
  match pt_zone with
  | some _ => targets.map (fun _ => nanResult)
  | none =>
      workerLoop ok s minpts maxpts radius ok.point_data (enumFromQ 0 targets)
        (targets.map (fun _ => nanResult))

/-- Under `forgive = True` the sequential loop body never raises and
produces exactly the row that the worker writes into a default slot. -/
theorem seqTarget_true_eq_workerUpdate (ok : OrdinaryKrige) (s : LinSolver)
    (minpts maxpts : ℕ) (radius : ℝ) (pts : List PointRec) (ox oy : Option ℝ) :
    seqTarget ok s minpts maxpts radius pts true ox oy =
      Except.ok (workerUpdate ok s minpts maxpts radius pts ox oy nanResult) := by
  cases ox with
  | none => cases oy <;> rfl
  | some ix =>
    cases oy with
    | none => rfl
    | some iy =>
      unfold seqTarget workerUpdate
      by_cases hlen : (distCalcs pts ix iy (radius ^ 2)).length < minpts
      · simp only [hlen, if_true]
        rfl
      · simp only [hlen, if_false]
        cases hsm : serMin (truncSqrt maxpts (distCalcs pts ix iy (radius ^ 2))) with
        | none =>
            unfold seqSolvePath workerSolvePath
            cases s.solve (targetA ok (truncSqrt maxpts (distCalcs pts ix iy (radius ^ 2))))
              (formRhs (targetICov ok ix iy (truncSqrt maxpts (distCalcs pts ix iy (radius ^ 2))))) <;>
              rfl
        | some m =>
            by_cases hm : m.2 ≤ EPSILON
            · simp only [hm, if_true]
            · simp only [hm, if_false]
              unfold seqSolvePath workerSolvePath
              cases s.solve (targetA ok (truncSqrt maxpts (distCalcs pts ix iy (radius ^ 2))))
                (formRhs (targetICov ok ix iy (truncSqrt maxpts (distCalcs pts ix iy (radius ^ 2))))) <;>
                rfl

/-- Whenever the sequential loop body returns a row (it did not raise),
that row is the one the worker writes into a default slot, for either
value of `forgive`. -/
theorem seqTarget_ok_eq_workerUpdate (ok : OrdinaryKrige) (s : LinSolver)
    (minpts maxpts : ℕ) (radius : ℝ) (pts : List PointRec) (forgive : Bool)
    (ox oy : Option ℝ) (r : KrigeResult)
    (h : seqTarget ok s minpts maxpts radius pts forgive ox oy = Except.ok r) :
    r = workerUpdate ok s minpts maxpts radius pts ox oy nanResult := by
  cases ox with
  | none =>
      cases oy <;>
        · unfold seqTarget at h
          injection h with h
          subst h
          rfl
  | some ix =>
    cases oy with
    | none =>
        unfold seqTarget at h
        injection h with h
        subst h
        rfl
    | some iy =>
      unfold seqTarget at h
      unfold workerUpdate
      by_cases hlen : (distCalcs pts ix iy (radius ^ 2)).length < minpts
      · simp only [hlen, if_true] at h ⊢
        injection h with h
        subst h
        rfl
      · simp only [hlen, if_false] at h ⊢
        cases hsm : serMin (truncSqrt maxpts (distCalcs pts ix iy (radius ^ 2))) with
        | none =>
            rw [hsm] at h
            unfold seqSolvePath at h
            unfold workerSolvePath
            cases hs : s.solve (targetA ok (truncSqrt maxpts (distCalcs pts ix iy (radius ^ 2))))
                (formRhs (targetICov ok ix iy (truncSqrt maxpts (distCalcs pts ix iy (radius ^ 2))))) with
            | none =>
                rw [hs] at h
                cases forgive with
                | true =>
                    simp only [if_true] at h
                    injection h with h
                    subst h
                    rfl
                | false => simp at h
            | some facs =>
                rw [hs] at h
                injection h with h
                subst h
                rfl
        | some m =>
            rw [hsm] at h
            by_cases hm : m.2 ≤ EPSILON
            · simp only [hm, if_true] at h ⊢
              injection h with h
              subst h
              rfl
            · simp only [hm, if_false] at h ⊢
              unfold seqSolvePath at h
              unfold workerSolvePath
              cases hs : s.solve (targetA ok (truncSqrt maxpts (distCalcs pts ix iy (radius ^ 2))))
                  (formRhs (targetICov ok ix iy (truncSqrt maxpts (distCalcs pts ix iy (radius ^ 2))))) with
              | none =>
                  rw [hs] at h
                  cases forgive with
                  | true =>
                      simp only [if_true] at h
                      injection h with h
                      subst h
                      rfl
                  | false => simp at h
              | some facs =>
                  rw [hs] at h
                  injection h with h
                  subst h
                  rfl

/-- If the body succeeds on every element, the loop returns the list of
row values. -/
theorem exceptMapList_ok {α β : Type} (f : α → Except Unit β) (g : α → β)
    (l : List α) (h : ∀ a ∈ l, f a = Except.ok (g a)) :
    exceptMapList f l = Except.ok (l.map g) := by
  induction l with
  | nil => rfl
  | cons a as ih =>
      unfold exceptMapList
      rw [h a (List.mem_cons_self a as), ih (fun b hb => h b (List.mem_cons_of_mem a hb))]
      rfl

/-- If the body raises on some element of the batch, the loop raises. -/
theorem exceptMapList_error {α β : Type} (f : α → Except Unit β)
    (l : List α) (a : α) (ha : a ∈ l) (h : f a = Except.error ()) :
    exceptMapList f l = Except.error () := by
  induction l with
  | nil => cases ha
  | cons b bs ih =>
      unfold exceptMapList
      rcases List.mem_cons.mp ha with hab | hmem
      · subst hab
        rw [h]
      · cases hfb : f b with
        | error e => cases e; rfl
        | ok v =>
            rw [ih hmem]

/-- If the loop returns rows and every returned row is determined by `g`,
the result is the `g`-image of the batch. -/
theorem exceptMapList_ok_elim {α β : Type} (f : α → Except Unit β) (g : α → β)
    (hg : ∀ a r, f a = Except.ok r → r = g a) :
    ∀ (l : List α) (rs : List β), exceptMapList f l = Except.ok rs → rs = l.map g := by
  intro l
  induction l with
  | nil =>
      intro rs h
      unfold exceptMapList at h
      injection h with h
      subst h
      rfl
  | cons a as ih =>
      intro rs h
      unfold exceptMapList at h
      cases hfa : f a with
      | error e => rw [hfa] at h; cases h
      | ok b =>
          rw [hfa] at h
          cases hrest : exceptMapList f as with
          | error e => rw [hrest] at h; cases h
          | ok bs =>
              rw [hrest] at h
              injection h with h
              rw [← h, List.map_cons, ← hg a b hfa, ← ih bs hrest]

/-- Modifying the element right after a prefix rewrites exactly that
element. -/
theorem modifyAt_append {α : Type} (f : α → α) :
    ∀ (pre : List α) (x : α) (xs : List α),
      modifyAt f pre.length (pre ++ x :: xs) = pre ++ f x :: xs := by
  intro pre
  induction pre with
  | nil => intro x xs; rfl
  | cons p ps ih =>
      intro x xs
      simp only [List.cons_append, List.length_cons]
      unfold modifyAt
      rw [ih]

/-- Draining the queue writes every slot exactly once, in place: the final
slot array is the per-target worker row over the initial slot values. -/
theorem workerLoop_enumFromQ (ok : OrdinaryKrige) (s : LinSolver)
    (minpts maxpts : ℕ) (radius : ℝ) (pts : List PointRec) :
    ∀ (ts : List (Option ℝ × Option ℝ)) (pre slots : List KrigeResult),
      slots.length = ts.length →
      workerLoop ok s minpts maxpts radius pts (enumFromQ pre.length ts) (pre ++ slots) =
        pre ++ (ts.zip slots).map
          (fun p => workerUpdate ok s minpts maxpts radius pts p.1.1 p.1.2 p.2) := by
  intro ts
  induction ts with
  | nil =>
      intro pre slots hlen
      cases slots with
      | nil => simp [enumFromQ, workerLoop]
      | cons s0 ss => cases hlen
  | cons t ts ih =>
      intro pre slots hlen
      cases slots with
      | nil => cases hlen
      | cons s0 ss =>
          unfold enumFromQ workerLoop
          rw [modifyAt_append]
          have hcast : pre ++ workerUpdate ok s minpts maxpts radius pts t.1 t.2 s0 :: ss =
              (pre ++ [workerUpdate ok s minpts maxpts radius pts t.1 t.2 s0]) ++ ss := by
            simp
          have hlen2 : (pre ++ [workerUpdate ok s minpts maxpts radius pts t.1 t.2 s0]).length
              = pre.length + 1 := by simp
          rw [hcast, ← hlen2, ih _ ss (by simpa using hlen)]
          simp [List.zip_cons_cons]

/-- Zipping a list with the constant-default copy of itself and mapping the
worker row is the per-target worker row over defaults. -/
theorem zip_self_const_map (upd : (Option ℝ × Option ℝ) → KrigeResult → KrigeResult) :
    ∀ ts : List (Option ℝ × Option ℝ),
      ((ts.zip (ts.map (fun _ => nanResult))).map (fun p => upd p.1 p.2)) =
        ts.map (fun t => upd t nanResult) := by
  intro ts
  induction ts with
  | nil => rfl
  | cons t ts ih => simp only [List.map_cons, List.zip_cons_cons, ih]

/-- With `pt_zone = None` the parallel path computes the per-target worker
row over the pre-populated defaults. -/
theorem calcFactorsMp_none (ok : OrdinaryKrige) (s : LinSolver)
    (minpts maxpts : ℕ) (radius : ℝ) (forgive : Bool)
    (targets : List (Option ℝ × Option ℝ)) :
    calcFactorsMp ok s minpts maxpts radius none forgive targets =
      targets.map (fun t =>
        workerUpdate ok s minpts maxpts radius ok.point_data t.1 t.2 nanResult) := by
  have hrun := workerLoop_enumFromQ ok s minpts maxpts radius ok.point_data targets []
    (targets.map (fun _ => nanResult)) (by simp)
  simp only [List.nil_append, List.length_nil] at hrun
  calc calcFactorsMp ok s minpts maxpts radius none forgive targets
      = workerLoop ok s minpts maxpts radius ok.point_data (enumFromQ 0 targets)
          (targets.map (fun _ => nanResult)) := rfl
    _ = _ := by
          rw [hrun]
          exact zip_self_const_map
            (fun t => workerUpdate ok s minpts maxpts radius ok.point_data t.1 t.2) targets

/-- C1 (amended): with `pt_zone = None`, sequential and worker-pool
execution produce the same per-target rows — unconditionally when
`forgive = True`, and whenever the sequential path happens to succeed when
`forgive = False`.  (The zoned variant and the unforgiving handling of
solve failures genuinely differ; see the counterexample.) -/
theorem calc_factors_seq_mp_equivalent (ok : OrdinaryKrige) (s : LinSolver)
    (minpts maxpts : ℕ) (radius : ℝ) (targets : List (Option ℝ × Option ℝ)) :
    calcFactorsOrg ok s minpts maxpts radius none true targets =
        Except.ok (calcFactorsMp ok s minpts maxpts radius none true targets)
    ∧ (∀ rs, calcFactorsOrg ok s minpts maxpts radius none false targets = Except.ok rs →
        rs = calcFactorsMp ok s minpts maxpts radius none false targets) := by
  constructor
  · rw [calcFactorsMp_none]
    unfold calcFactorsOrg
    exact exceptMapList_ok _ _ targets
      (fun t _ => seqTarget_true_eq_workerUpdate ok s minpts maxpts radius (zonePts ok none) t.1 t.2)
  · intro rs h
    rw [calcFactorsMp_none]
    exact exceptMapList_ok_elim _ _
      (fun a r hr =>
        seqTarget_ok_eq_workerUpdate ok s minpts maxpts radius (zonePts ok none) false a.1 a.2 r hr)
      targets rs h

/-- C10: whenever `calc_factors` runs with a zone restriction and more than
one thread, the static worker dereferences the undefined `self` and every
worker process dies before popping a single target, so the caller gets back
one pre-populated default row per target — empty neighbor lists, NaN error
variance — and no exception. -/
theorem calc_factors_mp_zoned_all_defaults (ok : OrdinaryKrige) (s : LinSolver)
    (minpts maxpts : ℕ) (radius : ℝ) (z : Int) (forgive : Bool)
    (targets : List (Option ℝ × Option ℝ)) :
    calcFactorsMp ok s minpts maxpts radius (some z) forgive targets =
      targets.map (fun _ => (⟨[], [], [], none⟩ : KrigeResult)) := rfl

/-- Evaluation helper: when the candidate count is sufficient, the nearest
retained candidate is farther than `EPSILON`, and the solve fails, the
sequential body yields the NaN row under `forgive` and raises otherwise. -/
theorem seqTarget_fail_eval (ok : OrdinaryKrige) (s : LinSolver)
    (minpts maxpts : ℕ) (radius : ℝ) (pts : List PointRec) (ix iy : ℝ)
    (hlen : ¬ (distCalcs pts ix iy (radius ^ 2)).length < minpts)
    (hnear : ∀ m, serMin (truncSqrt maxpts (distCalcs pts ix iy (radius ^ 2)))
        = some m → ¬ m.2 ≤ EPSILON)
    (hfail : s.solve
        (targetA ok (truncSqrt maxpts (distCalcs pts ix iy (radius ^ 2))))
        (formRhs (targetICov ok ix iy
          (truncSqrt maxpts (distCalcs pts ix iy (radius ^ 2))))) = none) :
    ∀ fg : Bool, seqTarget ok s minpts maxpts radius pts fg (some ix) (some iy) =
      if fg then Except.ok nanResult else Except.error () := by
  intro fg
  unfold seqTarget
  simp only [hlen, if_false]
  cases hsm : serMin (truncSqrt maxpts (distCalcs pts ix iy (radius ^ 2))) with
  | none =>
      unfold seqSolvePath
      rw [hfail]
  | some m =>
      simp only [hnear m hsm, if_false]
      unfold seqSolvePath
      rw [hfail]

/-- Evaluation helper: the exact-match shortcut of the sequential body. -/
theorem seqTarget_exact_eval (ok : OrdinaryKrige) (s : LinSolver)
    (minpts maxpts : ℕ) (radius : ℝ) (pts : List PointRec) (forgive : Bool)
    (ix iy : ℝ) (nm : String) (d : ℝ)
    (hlen : ¬ (distCalcs pts ix iy (radius ^ 2)).length < minpts)
    (hmin : serMin (truncSqrt maxpts (distCalcs pts ix iy (radius ^ 2))) = some (nm, d))
    (hd : d ≤ EPSILON) :
    seqTarget ok s minpts maxpts radius pts forgive (some ix) (some iy) =
      Except.ok ⟨[nm], [EPSILON], [1.0], some ok.geostruct.nugget⟩ := by
  unfold seqTarget
  simp only [hlen, if_false]
  rw [hmin]
  simp [hd]

/-- C6: when the assembled kriging system for a target cannot be solved,
the target is recorded as a NaN row and the batch continues if `forgive`,
and the whole batch raises if not. -/
theorem calc_factors_solve_failure (ok : OrdinaryKrige) (s : LinSolver)
    (minpts maxpts : ℕ) (radius : ℝ) (pt_zone : Option Int) (ix iy : ℝ)
    (hlen : ¬ (distCalcs (zonePts ok pt_zone) ix iy (radius ^ 2)).length < minpts)
    (hnear : ∀ m, serMin (truncSqrt maxpts (distCalcs (zonePts ok pt_zone) ix iy (radius ^ 2)))
        = some m → ¬ m.2 ≤ EPSILON)
    (hfail : s.solve
        (targetA ok (truncSqrt maxpts (distCalcs (zonePts ok pt_zone) ix iy (radius ^ 2))))
        (formRhs (targetICov ok ix iy
          (truncSqrt maxpts (distCalcs (zonePts ok pt_zone) ix iy (radius ^ 2))))) = none) :
    seqTarget ok s minpts maxpts radius (zonePts ok pt_zone) true (some ix) (some iy)
        = Except.ok nanResult
    ∧ seqTarget ok s minpts maxpts radius (zonePts ok pt_zone) false (some ix) (some iy)
        = Except.error ()
    ∧ (∀ targets, (some ix, some iy) ∈ targets →
        calcFactorsOrg ok s minpts maxpts radius pt_zone false targets = Except.error ())
    ∧ (∀ targets, ∃ rs,
        calcFactorsOrg ok s minpts maxpts radius pt_zone true targets = Except.ok rs ∧
          rs.length = targets.length) := by
  have hbody := seqTarget_fail_eval ok s minpts maxpts radius (zonePts ok pt_zone) ix iy
    hlen hnear hfail
  refine ⟨hbody true, hbody false, ?_, ?_⟩
  · intro targets hmem
    exact exceptMapList_error _ targets (some ix, some iy) hmem (hbody false)
  · intro targets
    refine ⟨targets.map (fun t =>
      workerUpdate ok s minpts maxpts radius (zonePts ok pt_zone) t.1 t.2 nanResult), ?_, ?_⟩
    · exact exceptMapList_ok _ _ targets
        (fun t _ => seqTarget_true_eq_workerUpdate ok s minpts maxpts radius (zonePts ok pt_zone) t.1 t.2)
    · exact List.length_map _ _

/-- C7: a target whose nearest retained conditioning point lies within
`EPSILON` skips the solve entirely and is recorded with exactly that one
neighbor, weight `[1.0]`, and error variance equal to the nugget. -/
theorem calc_factors_exact_match (ok : OrdinaryKrige) (s : LinSolver)
    (minpts maxpts : ℕ) (radius : ℝ) (pts : List PointRec) (forgive : Bool)
    (ix iy : ℝ) (nm : String) (d : ℝ)
    (hlen : ¬ (distCalcs pts ix iy (radius ^ 2)).length < minpts)
    (hmin : serMin (truncSqrt maxpts (distCalcs pts ix iy (radius ^ 2))) = some (nm, d))
    (hd : d ≤ EPSILON) :
    seqTarget ok s minpts maxpts radius pts forgive (some ix) (some iy) =
      Except.ok ⟨[nm], [EPSILON], [1.0], some ok.geostruct.nugget⟩ :=
  seqTarget_exact_eval ok s minpts maxpts radius pts forgive ix iy nm d hlen hmin hd

/-- C8: a target with fewer than `minpts_interp` candidates inside the
search radius is recorded with empty names, distances and weights and error
variance equal to the sill, and a target with a NaN coordinate is recorded
with empty lists and NaN error variance. -/
theorem calc_factors_shortfall_and_nan_target (ok : OrdinaryKrige) (s : LinSolver)
    (minpts maxpts : ℕ) (radius : ℝ) (pts : List PointRec) (forgive : Bool) :
    (∀ ix iy : ℝ, (distCalcs pts ix iy (radius ^ 2)).length < minpts →
      seqTarget ok s minpts maxpts radius pts forgive (some ix) (some iy) =
        Except.ok ⟨[], [], [], some ok.geostruct.sill⟩)
    ∧ (∀ oy, seqTarget ok s minpts maxpts radius pts forgive none oy =
        Except.ok ⟨[], [], [], none⟩)
    ∧ (∀ ox, seqTarget ok s minpts maxpts radius pts forgive ox none =
        Except.ok ⟨[], [], [], none⟩) := by
  refine ⟨?_, ?_, ?_⟩
  · intro ix iy hshort
    unfold seqTarget
    simp only [hshort, if_true]
  · intro oy
    cases oy <;> rfl
  · intro ox
    cases ox <;> rfl

/-- A single conditioning point at the origin, in zone 1. -/
noncomputable def pRec : PointRec := ⟨"p", 0, 0, 1⟩

/-- A concrete kriging instance: exponential variogram, nugget `0.5`, one
conditioning point. -/
noncomputable def okX : OrdinaryKrige :=
  ⟨⟨0.5, [⟨VarioType.exp, 1.0, 10.0, 1.0, 0.0⟩], false⟩, [pRec]⟩

/-- A solver that reports every system as singular. -/
def failSolver : LinSolver :=
  ⟨fun _ _ => none, by intro A b w h; cases h⟩

/-- Candidate search over a single conditioning point inside the radius. -/
theorem distCalcs_singleton (p : PointRec) (ix iy sq : ℝ)
    (h : (p.x - ix) ^ 2 + (p.y - iy) ^ 2 ≤ sq) :
    distCalcs [p] ix iy sq = [(p.name, (p.x - ix) ^ 2 + (p.y - iy) ^ 2)] := by
  unfold distCalcs
  simp [List.insertionSort, List.orderedInsert, List.filter, h]

/-- Candidate search from `(ix, 0)` to the origin point. -/
theorem distCalcs_pRec (ix : ℝ) (h : ix ^ 2 ≤ 100) :
    distCalcs [pRec] ix 0 ((10:ℝ) ^ 2) = [("p", ix ^ 2)] := by
  have hxy : (pRec.x - ix) ^ 2 + (pRec.y - 0) ^ 2 = ix ^ 2 := by
    simp only [pRec]
    ring
  have h100 : ((10:ℝ) ^ 2) = 100 := by norm_num
  rw [distCalcs_singleton pRec ix 0 ((10:ℝ) ^ 2) (by rw [hxy, h100]; exact h)]
  rw [hxy]
  simp [pRec]

/-- The concrete target at the origin triggers the exact-match shortcut. -/
theorem seqTarget_pRec_origin (s : LinSolver) (forgive : Bool) :
    seqTarget okX s 1 20 10 [pRec] forgive (some 0) (some 0) =
      Except.ok ⟨["p"], [EPSILON], [1.0], some okX.geostruct.nugget⟩ := by
  have hdist : distCalcs [pRec] 0 0 ((10:ℝ) ^ 2) = [("p", 0)] := by
    rw [distCalcs_pRec 0 (by norm_num)]
    norm_num
  have htrunc : truncSqrt 20 (distCalcs [pRec] 0 0 ((10:ℝ) ^ 2)) = [("p", 0)] := by
    rw [hdist]
    simp [truncSqrt, Real.sqrt_zero]
  apply seqTarget_exact_eval okX s 1 20 10 [pRec] forgive 0 0 "p" 0
  · rw [hdist]
    norm_num
  · rw [htrunc]
    rfl
  · unfold EPSILON
    norm_num

/-- The concrete target at `(3, 0)` reaches the solve, which the failing
solver rejects. -/
theorem seqTarget_pRec_three (fg : Bool) :
    seqTarget okX failSolver 1 20 10 [pRec] fg (some 3) (some 0) =
      if fg then Except.ok nanResult else Except.error () := by
  have hdist : distCalcs [pRec] 3 0 ((10:ℝ) ^ 2) = [("p", (3:ℝ) ^ 2)] :=
    distCalcs_pRec 3 (by norm_num)
  have htrunc : truncSqrt 20 (distCalcs [pRec] 3 0 ((10:ℝ) ^ 2)) = [("p", 3)] := by
    rw [hdist]
    simp [truncSqrt, Real.sqrt_sq (by norm_num : (0:ℝ) ≤ 3)]
  apply seqTarget_fail_eval okX failSolver 1 20 10 [pRec] 3 0
  · rw [hdist]
    norm_num
  · intro m hm
    rw [htrunc] at hm
    simp only [serMin, List.foldl_nil, Option.some.injEq] at hm
    rw [← hm]
    unfold EPSILON
    norm_num
  · rfl

/-- The batch loop on a one-target batch whose body succeeds. -/
theorem exceptMapList_one {α β : Type} (f : α → Except Unit β) (t : α) (b : β)
    (h : f t = Except.ok b) : exceptMapList f [t] = Except.ok [b] := by
  unfold exceptMapList
  rw [h]
  rfl

/-- The batch loop on a one-target batch whose body raises. -/
theorem exceptMapList_one_error {α β : Type} (f : α → Except Unit β) (t : α)
    (h : f t = Except.error ()) : exceptMapList f [t] = Except.error () := by
  unfold exceptMapList
  rw [h]

/-- The zone-1 restriction of the concrete point set. -/
theorem zonePts_okX_one : zonePts okX (some 1) = [pRec] := rfl

/-- Candidate search for the target at the origin evaluates to the one
candidate at squared distance zero. -/
theorem distCalcs_pRec_zero : distCalcs [pRec] 0 0 ((10:ℝ) ^ 2) = [("p", 0)] := by
  rw [distCalcs_pRec 0 (by norm_num)]
  norm_num

/-- Truncation and square roots at the origin target. -/
theorem truncSqrt_pRec_zero : truncSqrt 20 (distCalcs [pRec] 0 0 ((10:ℝ) ^ 2)) = [("p", 0)] := by
  rw [distCalcs_pRec_zero]
  simp [truncSqrt, Real.sqrt_zero]

/-- Candidate search for the target at `(3, 0)`. -/
theorem distCalcs_pRec_three : distCalcs [pRec] 3 0 ((10:ℝ) ^ 2) = [("p", (3:ℝ) ^ 2)] :=
  distCalcs_pRec 3 (by norm_num)

/-- Truncation and square roots at the `(3, 0)` target. -/
theorem truncSqrt_pRec_three : truncSqrt 20 (distCalcs [pRec] 3 0 ((10:ℝ) ^ 2)) = [("p", 3)] := by
  rw [distCalcs_pRec_three]
  simp [truncSqrt, Real.sqrt_sq (by norm_num : (0:ℝ) ≤ 3)]

/-- Counterexample to C1 as stated: with a zone restriction the parallel
path returns the untouched default row while the sequential path returns
the exact-match row, and with `forgive = False` a singular system aborts
the sequential batch while the parallel path returns the default row. -/
theorem calc_factors_seq_mp_counterexample :
    calcFactorsOrg okX failSolver 1 20 10 (some 1) false [(some 0, some 0)]
        = Except.ok [⟨["p"], [EPSILON], [1.0], some okX.geostruct.nugget⟩]
    ∧ calcFactorsMp okX failSolver 1 20 10 (some 1) false [(some 0, some 0)]
        = [⟨[], [], [], none⟩]
    ∧ calcFactorsOrg okX failSolver 1 20 10 none false [(some 3, some 0)]
        = Except.error ()
    ∧ calcFactorsMp okX failSolver 1 20 10 none false [(some 3, some 0)]
        = [⟨[], [], [], none⟩]
    ∧ (⟨["p"], [EPSILON], [1.0], some okX.geostruct.nugget⟩ : KrigeResult)
        ≠ ⟨[], [], [], none⟩ := by
  refine ⟨?_, rfl, ?_, ?_, ?_⟩
  · unfold calcFactorsOrg
    exact exceptMapList_one _ _ _ (seqTarget_pRec_origin failSolver false)
  · unfold calcFactorsOrg
    exact exceptMapList_one_error _ _ (seqTarget_pRec_three false)
  · rw [calcFactorsMp_none]
    simp only [List.map_cons, List.map_nil]
    have h1 := seqTarget_true_eq_workerUpdate okX failSolver 1 20 10 okX.point_data
      (some 3) (some 0)
    have h2 : seqTarget okX failSolver 1 20 10 okX.point_data true (some 3) (some 0)
        = Except.ok nanResult := seqTarget_pRec_three true
    rw [h2] at h1
    injection h1 with h1
    rw [← h1]
    rfl
  · intro hcontra
    simp only [KrigeResult.mk.injEq] at hcontra
    exact List.cons_ne_nil _ _ hcontra.1

/-- Witness for the amended C1 at a concrete one-target batch. -/
theorem calc_factors_seq_mp_equivalent_witness :
    calcFactorsOrg okX failSolver 1 20 10 none false [(some 0, some 0)]
        = Except.ok [⟨["p"], [EPSILON], [1.0], some okX.geostruct.nugget⟩]
    ∧ [(⟨["p"], [EPSILON], [1.0], some okX.geostruct.nugget⟩ : KrigeResult)]
        = calcFactorsMp okX failSolver 1 20 10 none false [(some 0, some 0)] := by
  have hseq : calcFactorsOrg okX failSolver 1 20 10 none false [(some 0, some 0)]
      = Except.ok [⟨["p"], [EPSILON], [1.0], some okX.geostruct.nugget⟩] := by
    unfold calcFactorsOrg
    exact exceptMapList_one _ _ _ (seqTarget_pRec_origin failSolver false)
  exact ⟨hseq,
    (calc_factors_seq_mp_equivalent okX failSolver 1 20 10 [(some 0, some 0)]).2 _ hseq⟩

/-- Witness for C6 at a concrete target whose system the solver rejects. -/
theorem calc_factors_solve_failure_witness :
    seqTarget okX failSolver 1 20 10 (zonePts okX none) true (some 3) (some 0)
        = Except.ok nanResult
    ∧ seqTarget okX failSolver 1 20 10 (zonePts okX none) false (some 3) (some 0)
        = Except.error () := by
  have h := calc_factors_solve_failure okX failSolver 1 20 10 none 3 0
    (by
      show ¬ (distCalcs [pRec] 3 0 ((10:ℝ) ^ 2)).length < 1
      rw [distCalcs_pRec_three]
      norm_num)
    (by
      intro m hm
      have hm2 : serMin (truncSqrt 20 (distCalcs [pRec] 3 0 ((10:ℝ) ^ 2))) = some m := hm
      rw [truncSqrt_pRec_three] at hm2
      simp only [serMin, List.foldl_nil, Option.some.injEq] at hm2
      rw [← hm2]
      unfold EPSILON
      norm_num)
    rfl
  exact ⟨h.1, h.2.1⟩

/-- Witness for C7 at a concrete target coincident with a conditioning
point. -/
theorem calc_factors_exact_match_witness :
    seqTarget okX failSolver 1 20 10 [pRec] true (some 0) (some 0)
        = Except.ok ⟨["p"], [EPSILON], [1.0], some okX.geostruct.nugget⟩ :=
  calc_factors_exact_match okX failSolver 1 20 10 [pRec] true 0 0 "p" 0
    (by rw [distCalcs_pRec_zero]; norm_num)
    (by rw [truncSqrt_pRec_zero]; rfl)
    (by unfold EPSILON; norm_num)

/-- Witness for C8 at a concrete shortfall target and a NaN target. -/
theorem calc_factors_shortfall_witness :
    ((distCalcs [pRec] 0 0 ((10:ℝ) ^ 2)).length < 2 ∧
      seqTarget okX failSolver 2 20 10 [pRec] false (some 0) (some 0) =
        Except.ok ⟨[], [], [], some okX.geostruct.sill⟩)
    ∧ seqTarget okX failSolver 2 20 10 [pRec] false none (some 0) =
        Except.ok ⟨[], [], [], none⟩ := by
  have hlen : (distCalcs [pRec] 0 0 ((10:ℝ) ^ 2)).length < 2 := by
    rw [distCalcs_pRec_zero]
    norm_num
  exact ⟨⟨hlen,
    (calc_factors_shortfall_and_nan_target okX failSolver 2 20 10 [pRec] false).1 0 0 hlen⟩,
    (calc_factors_shortfall_and_nan_target okX failSolver 2 20 10 [pRec] false).2.1 (some 0)⟩

/-- One parsed line of a factors file (`_parse_factor_line`): 1-based node
index, transform flag, and the `(zero-based point index, weight)` pairs. -/
structure FactorLine where
  inode : ℕ
  itrans : ℕ
  fac_data : List (ℕ × ℝ)

/-- Python-dict semantics of `fac_data`: a repeated key keeps only its last
value.  On the unique keys that `to_grid_factors_file` writes this is the
identity. -/
def dictOfPairs : List (ℕ × ℝ) → List (ℕ × ℝ)
  | [] => []
  | p :: ps => if p.1 ∈ ps.map Prod.fst then dictOfPairs ps else p :: dictOfPairs ps

/-- The per-line reconstructed value of `fac2real`: `sum(value * weight)`
under flag 0, `10 ** sum(log10(value) * weight)` otherwise. -/
noncomputable def facSum (ppval : ℕ → ℝ) (L : FactorLine) : ℝ :=
  if L.itrans = 0 then
    ((dictOfPairs L.fac_data).map (fun pr => ppval pr.1 * pr.2)).sum
  else
    (10:ℝ) ^ (((dictOfPairs L.fac_data).map
      (fun pr => Real.logb 10 (ppval pr.1) * pr.2)).sum)

/-- Zero-based array cell written by a factor line:
`row = (inode - 1) // ncol + 1`, `col = inode - (row - 1) * ncol`, written
at `arr[row - 1, col - 1]`. -/
def cellOf (ncol : ℕ) (L : FactorLine) : ℕ × ℕ :=
  let row := (L.inode - 1) / ncol + 1
  let col := L.inode - (row - 1) * ncol
  (row - 1, col - 1)

/-- Processing one factor line overwrites that line's cell with its
reconstructed value. -/
noncomputable def applyLine (ppval : ℕ → ℝ) (ncol : ℕ)
    (arr : ℕ → ℕ → ℝ) (L : FactorLine) : ℕ → ℕ → ℝ :=
  fun i j => if (i, j) = cellOf ncol L then facSum ppval L else arr i j

/-- The array assembly of `fac2real`: start from an array filled with
`fill_value`, process every factor line, then apply
`arr[arr < lower_lim] = lower_lim` followed by
`arr[arr > upper_lim] = upper_lim`. -/
noncomputable def fac2realArr (ppval : ℕ → ℝ) (ncol : ℕ) (lines : List FactorLine)
    (upper_lim lower_lim fill_value : ℝ) : ℕ → ℕ → ℝ :=
  fun i j =>
    let v := (lines.foldl (applyLine ppval ncol) (fun _ _ => fill_value)) i j
    let v1 := if v < lower_lim then lower_lim else v
    if v1 > upper_lim then upper_lim else v1

/-- `OrdinaryKrige.to_grid_factors_file` composed with
`_parse_factor_line`: one line per row of `interp_data` with nonempty
weights, carrying the 1-based node index `idx + 1`, the transform flag, and
the pairs of zero-based point positions (`pt_names.index(name)`; the file
stores `i + 1` and the parser subtracts 1) with their weights. -/
noncomputable def toGridFactorLines (pt_names : List String) (islog : Bool)
    (results : List KrigeResult) : List FactorLine :=
  ((enumFromQ 0 results).filter (fun pr => !pr.2.ifacts.isEmpty)).map
    (fun pr => ⟨pr.1 + 1, if islog then 1 else 0,
      (pr.2.inames.map (fun nm => pt_names.indexOf nm)).zip pr.2.ifacts⟩)

/-- The grid value implied directly by the kriging weights, following the
specification: the sum of `weight * value` over the neighbors, or
`10 ^ (sum of weight * log10(value))` under the log transform.  This is the
specification-side definition for the round-trip comparison. -/
noncomputable def directGridValue (values : ℕ → ℝ) (pt_names : List String)
    (islog : Bool) (r : KrigeResult) : ℝ :=
  if islog then
    (10:ℝ) ^ (((r.inames.zip r.ifacts).map
      (fun pr => pr.2 * Real.logb 10 (values (pt_names.indexOf pr.1)))).sum)
  else
    ((r.inames.zip r.ifacts).map
      (fun pr => pr.2 * values (pt_names.indexOf pr.1))).sum

/-- C2 (evaluation of the code at the failing input): a node reconstructed
to `5` with `upper_lim = 4` and `fill_value = 999` is clamped to the limit
`4` rather than set to the fill value, and a never-visited node holding
`fill_value = 999` is likewise clamped to `4` instead of keeping the fill
value. -/
theorem fac2real_clips_to_limits_not_fill :
    fac2realArr (fun _ => 5) 2 [⟨1, 0, [(0, 1)]⟩] 4 (-100) 999 0 0 = 4
    ∧ fac2realArr (fun _ => 5) 2 [⟨1, 0, [(0, 1)]⟩] 4 (-100) 999 0 1 = 4
    ∧ ((4:ℝ) ≠ 999) := by
  have hcell : cellOf 2 ⟨1, 0, [(0, 1)]⟩ = (0, 0) := rfl
  have hsum : facSum (fun _ => 5) ⟨1, 0, [(0, 1)]⟩ = 5 := by
    norm_num [facSum, dictOfPairs]
  refine ⟨?_, ?_, by norm_num⟩
  · simp only [fac2realArr, List.foldl_cons, List.foldl_nil, applyLine, hcell, hsum]
    norm_num
  · simp only [fac2realArr, List.foldl_cons, List.foldl_nil, applyLine, hcell, hsum]
    norm_num

/-- A cell not written by any factor line keeps its prior value. -/
theorem foldl_applyLine_untouched (ppval : ℕ → ℝ) (ncol : ℕ) :
    ∀ (lines : List FactorLine) (arr : ℕ → ℕ → ℝ) (i j : ℕ),
      (∀ L ∈ lines, cellOf ncol L ≠ (i, j)) →
      lines.foldl (applyLine ppval ncol) arr i j = arr i j := by
  intro lines
  induction lines with
  | nil => intro arr i j _; rfl
  | cons N ls ih =>
      intro arr i j h
      rw [List.foldl_cons, ih _ i j (fun L hL => h L (List.mem_cons_of_mem N hL))]
      unfold applyLine
      rw [if_neg (fun he => h N (List.mem_cons_self N ls) he.symm)]

/-- A cell written by some factor line (all lines hitting it carrying the
same value) ends up holding that value. -/
theorem foldl_applyLine_write (ppval : ℕ → ℝ) (ncol : ℕ) :
    ∀ (lines : List FactorLine) (arr : ℕ → ℕ → ℝ) (i j : ℕ) (L : FactorLine),
      L ∈ lines → cellOf ncol L = (i, j) →
      (∀ M ∈ lines, cellOf ncol M = (i, j) → facSum ppval M = facSum ppval L) →
      lines.foldl (applyLine ppval ncol) arr i j = facSum ppval L := by
  intro lines
  induction lines with
  | nil => intro arr i j L hL; cases hL
  | cons N ls ih =>
      intro arr i j L hL hcell huniq
      by_cases hrest : ∀ M ∈ ls, cellOf ncol M ≠ (i, j)
      · rw [List.foldl_cons, foldl_applyLine_untouched ppval ncol ls _ i j hrest]
        unfold applyLine
        rcases List.mem_cons.mp hL with rfl | hLs
        · rw [if_pos hcell.symm]
        · exact absurd hcell (hrest L hLs)
      · push_neg at hrest
        obtain ⟨M, hM, hMc⟩ := hrest
        rw [List.foldl_cons,
          ih _ i j M hM hMc (fun K hK hKc =>
            ((huniq K (List.mem_cons_of_mem N hK) hKc).trans
              (huniq M (List.mem_cons_of_mem N hM) hMc).symm))]
        exact huniq M (List.mem_cons_of_mem N hM) hMc

/-- Every list position appears in its enumeration. -/
theorem enumFromQ_get_mem {α : Type} :
    ∀ (l : List α) (k j : ℕ) (hj : j < l.length),
      (k + j, l.get ⟨j, hj⟩) ∈ enumFromQ k l := by
  intro l
  induction l with
  | nil => intro k j hj; cases hj
  | cons a as ih =>
      intro k j hj
      cases j with
      | zero => simp [enumFromQ]
      | succ j =>
          have hmem := ih (k + 1) j (Nat.lt_of_succ_lt_succ hj)
          have harith : k + 1 + j = k + (j + 1) := by omega
          rw [harith] at hmem
          exact List.mem_cons_of_mem _ hmem

/-- Every member of an enumeration is a list position with its offset
index. -/
theorem enumFromQ_mem_elim {α : Type} :
    ∀ (l : List α) (k : ℕ) (p : ℕ × α), p ∈ enumFromQ k l →
      ∃ j, ∃ hj : j < l.length, p.1 = k + j ∧ p.2 = l.get ⟨j, hj⟩ := by
  intro l
  induction l with
  | nil => intro k p hp; cases hp
  | cons a as ih =>
      intro k p hp
      rcases List.mem_cons.mp hp with rfl | hmem
      · exact ⟨0, Nat.succ_pos _, by omega, rfl⟩
      · obtain ⟨j, hj, h1, h2⟩ := ih (k + 1) p hmem
        exact ⟨j + 1, Nat.succ_lt_succ hj, by omega, h2⟩

/-- The cell written by a line with node index `j + 1` is
`(j / ncol, j % ncol)`. -/
theorem cellOf_node (ncol j : ℕ) (L : FactorLine) (hn : L.inode = j + 1) :
    cellOf ncol L = (j / ncol, j % ncol) := by
  have hdm := Nat.div_add_mod j ncol
  unfold cellOf
  rw [hn]
  show ((j + 1 - 1) / ncol + 1 - 1,
        j + 1 - ((j + 1 - 1) / ncol + 1 - 1) * ncol - 1) = (j / ncol, j % ncol)
  have h1 : j + 1 - 1 = j := rfl
  rw [h1]
  have h4 : j / ncol + 1 - 1 = j / ncol := rfl
  rw [h4]
  have h2 : j / ncol * ncol = ncol * (j / ncol) := Nat.mul_comm _ _
  rw [h2]
  simp only [Prod.mk.injEq]
  exact ⟨trivial, by omega⟩

/-- A pair list with distinct keys is already a dict. -/
theorem dictOfPairs_nodup :
    ∀ l : List (ℕ × ℝ), (l.map Prod.fst).Nodup → dictOfPairs l = l := by
  intro l
  induction l with
  | nil => intro _; rfl
  | cons p ps ih =>
      intro h
      rw [List.map_cons, List.nodup_cons] at h
      unfold dictOfPairs
      rw [if_neg h.1, ih h.2]

/-- Reindexing a name/weight sum through the point-name positions: the
reader's per-key sum over the written pairs equals the direct sum over the
names. -/
theorem zip_map_reindex (f : String → ℕ) (h : ℕ → ℝ) :
    ∀ (ns : List String) (ws : List ℝ),
      (((ns.map f).zip ws).map (fun pr => h pr.1 * pr.2)).sum
        = ((ns.zip ws).map (fun pr => pr.2 * h (f pr.1))).sum := by
  intro ns
  induction ns with
  | nil => intro ws; rfl
  | cons n ns ih =>
      intro ws
      cases ws with
      | nil => rfl
      | cons w ws =>
          simp only [List.map_cons, List.zip_cons_cons, List.sum_cons, ih]
          ring_nf

/-- The keys written for one node are distinct whenever the mapped name
positions are, so the parsed dict is the pair list itself. -/
theorem line_dict_eq (pt_names : List String) (r : KrigeResult)
    (hlen : r.inames.length = r.ifacts.length)
    (hkeys : (r.inames.map (fun nm => pt_names.indexOf nm)).Nodup) :
    dictOfPairs ((r.inames.map (fun nm => pt_names.indexOf nm)).zip r.ifacts)
      = (r.inames.map (fun nm => pt_names.indexOf nm)).zip r.ifacts := by
  apply dictOfPairs_nodup
  have hlen2 : (r.inames.map (fun nm => pt_names.indexOf nm)).length ≤ r.ifacts.length := by
    rw [List.length_map, hlen]
  rw [List.map_fst_zip _ _ hlen2]
  exact hkeys

/-- The value the reader computes for a written line is the direct grid
value of the corresponding kriging row. -/
theorem facSum_line (values : ℕ → ℝ) (pt_names : List String) (islog : Bool)
    (res : KrigeResult) (inode : ℕ)
    (hlen : res.inames.length = res.ifacts.length)
    (hkeys : (res.inames.map (fun nm => pt_names.indexOf nm)).Nodup) :
    facSum values ⟨inode, if islog then 1 else 0,
        (res.inames.map (fun nm => pt_names.indexOf nm)).zip res.ifacts⟩
      = directGridValue values pt_names islog res := by
  cases islog with
  | false =>
      simp only [facSum, directGridValue, Bool.false_eq_true, if_false]
      rw [line_dict_eq pt_names res hlen hkeys]
      exact zip_map_reindex (fun nm => pt_names.indexOf nm) values res.inames res.ifacts
  | true =>
      simp only [facSum, directGridValue, if_true]
      rw [line_dict_eq pt_names res hlen hkeys]
      rw [if_neg (by norm_num)]
      congr 1
      exact zip_map_reindex (fun nm => pt_names.indexOf nm)
        (fun k => Real.logb 10 (values k)) res.inames res.ifacts

/-- Evaluation of the reconstructed array at a cell whose assembled value
is inside the limits. -/
theorem fac2realArr_eval (ppval : ℕ → ℝ) (ncol : ℕ) (lines : List FactorLine)
    (upper_lim lower_lim fill_value : ℝ) (i j : ℕ) (v : ℝ)
    (hv : lines.foldl (applyLine ppval ncol) (fun _ _ => fill_value) i j = v)
    (h1 : ¬ v < lower_lim) (h2 : ¬ v > upper_lim) :
    fac2realArr ppval ncol lines upper_lim lower_lim fill_value i j = v := by
  unfold fac2realArr
  show (if (if lines.foldl (applyLine ppval ncol) (fun _ _ => fill_value) i j < lower_lim
            then lower_lim
            else lines.foldl (applyLine ppval ncol) (fun _ _ => fill_value) i j) > upper_lim
        then upper_lim
        else (if lines.foldl (applyLine ppval ncol) (fun _ _ => fill_value) i j < lower_lim
              then lower_lim
              else lines.foldl (applyLine ppval ncol) (fun _ _ => fill_value) i j)) = v
  rw [hv, if_neg h1, if_neg h2]

/-- C4: writing the factors with `to_grid_factors_file` and reconstructing
with `fac2real` reproduces, at every estimable node, the grid value implied
directly by the `calc_factors` weights — for the direct (flag 0) and log
(flag 1) transforms alike — through the node mapping
`row = (node-1)//ncol + 1`, `col = node - (row-1)*ncol`. -/
theorem fac2real_roundtrip (values : ℕ → ℝ) (pt_names : List String) (islog : Bool)
    (results : List KrigeResult) (ncol : ℕ) (upper_lim lower_lim fill_value : ℝ)
    (r c : ℕ) (hc : c < ncol) (hidx : r * ncol + c < results.length)
    (hres : (results.get ⟨r * ncol + c, hidx⟩).ifacts ≠ [])
    (hlen : (results.get ⟨r * ncol + c, hidx⟩).inames.length
        = (results.get ⟨r * ncol + c, hidx⟩).ifacts.length)
    (hkeys : ((results.get ⟨r * ncol + c, hidx⟩).inames.map
        (fun nm => pt_names.indexOf nm)).Nodup)
    (hlow : ¬ directGridValue values pt_names islog (results.get ⟨r * ncol + c, hidx⟩)
        < lower_lim)
    (hhigh : ¬ directGridValue values pt_names islog (results.get ⟨r * ncol + c, hidx⟩)
        > upper_lim) :
    fac2realArr values ncol (toGridFactorLines pt_names islog results)
        upper_lim lower_lim fill_value r c
      = directGridValue values pt_names islog (results.get ⟨r * ncol + c, hidx⟩) := by
  have hncol : 0 < ncol := Nat.lt_of_le_of_lt (Nat.zero_le c) hc
  set idx := r * ncol + c with hidxdef
  set res := results.get ⟨idx, hidx⟩ with hresdef
  set L : FactorLine := ⟨idx + 1, if islog then 1 else 0,
    (res.inames.map (fun nm => pt_names.indexOf nm)).zip res.ifacts⟩ with hLdef
  have henum : ((idx : ℕ), res) ∈ enumFromQ 0 results := by
    have hmem := enumFromQ_get_mem results 0 idx hidx
    simpa using hmem
  have hfilter : ((idx, res)) ∈ (enumFromQ 0 results).filter
      (fun pr => !pr.2.ifacts.isEmpty) := by
    rw [List.mem_filter]
    refine ⟨henum, ?_⟩
    cases hfa : res.ifacts with
    | nil => exact absurd hfa hres
    | cons a l => simp [hfa]
  have hLmem : L ∈ toGridFactorLines pt_names islog results := by
    unfold toGridFactorLines
    exact List.mem_map_of_mem _ hfilter
  have hdiv : idx / ncol = r := by
    have hco : idx = ncol * r + c := by rw [hidxdef]; ring
    rw [hco, Nat.mul_add_div hncol, Nat.div_eq_of_lt hc, Nat.add_zero]
  have hmod : idx % ncol = c := by
    have hco : idx = ncol * r + c := by rw [hidxdef]; ring
    rw [hco, Nat.mul_add_mod, Nat.mod_eq_of_lt hc]
  have hcell : cellOf ncol L = (r, c) := by
    rw [cellOf_node ncol idx L rfl, hdiv, hmod]
  have huniq : ∀ M ∈ toGridFactorLines pt_names islog results,
      cellOf ncol M = (r, c) → facSum values M = facSum values L := by
    intro M hM hMc
    unfold toGridFactorLines at hM
    obtain ⟨pr, hprmem, hfM⟩ := List.mem_map.mp hM
    obtain ⟨hpr_enum, _⟩ := List.mem_filter.mp hprmem
    obtain ⟨j, hj, hj1, hj2⟩ := enumFromQ_mem_elim results 0 pr hpr_enum
    have hMnode : M.inode = j + 1 := by
      rw [← hfM]
      simp [hj1]
    rw [cellOf_node ncol j M hMnode] at hMc
    rw [Prod.mk.injEq] at hMc
    obtain ⟨hMc1, hMc2⟩ := hMc
    have hdm := Nat.div_add_mod j ncol
    have hj_eq : j = idx := by
      have h5 : ncol * (j / ncol) = ncol * r := by rw [hMc1]
      have h7 : idx = ncol * r + c := by rw [hidxdef]; ring
      omega
    have hpr_eq : pr = (idx, res) := by
      rw [Prod.ext_iff]
      constructor
      · rw [hj1]
        omega
      · rw [hj2, hresdef]
        congr 1
        exact Fin.ext hj_eq
    rw [← hfM, hpr_eq]
  have hv := foldl_applyLine_write values ncol (toGridFactorLines pt_names islog results)
    (fun _ _ => fill_value) r c L hLmem hcell huniq
  have hfs : facSum values L = directGridValue values pt_names islog res := by
    rw [hLdef]
    exact facSum_line values pt_names islog res (idx + 1) hlen hkeys
  exact fac2realArr_eval values ncol _ upper_lim lower_lim fill_value r c _
    (hv.trans hfs) hlow hhigh

/-- A concrete one-node kriging row for the round-trip witness. -/
noncomputable def kr4 : KrigeResult := ⟨["p"], [0], [1.0], some 0⟩

/-- Witness for C4 on a concrete one-node grid. -/
theorem fac2real_roundtrip_witness :
    (kr4.ifacts ≠ []
      ∧ ¬ directGridValue (fun _ => 7) ["p"] false kr4 < 0
      ∧ ¬ directGridValue (fun _ => 7) ["p"] false kr4 > 100)
    ∧ fac2realArr (fun _ => 7) 1 (toGridFactorLines ["p"] false [kr4]) 100 0 55 0 0
        = directGridValue (fun _ => 7) ["p"] false kr4 := by
  have hd : directGridValue (fun _ => 7) ["p"] false kr4 = 7 := by
    norm_num [directGridValue, kr4]
  refine ⟨⟨by simp [kr4], by rw [hd]; norm_num, by rw [hd]; norm_num⟩, ?_⟩
  exact fac2real_roundtrip (fun _ => 7) ["p"] false [kr4] 1 100 0 55 0 0
    (by norm_num) (by norm_num)
    (by show kr4.ifacts ≠ []; simp [kr4])
    (by show kr4.inames.length = kr4.ifacts.length; simp [kr4])
    (by show (kr4.inames.map (fun nm => (["p"] : List String).indexOf nm)).Nodup; simp [kr4])
    (by show ¬ directGridValue (fun _ => 7) ["p"] false kr4 < 0; rw [hd]; norm_num)
    (by show ¬ directGridValue (fun _ => 7) ["p"] false kr4 > 100; rw [hd]; norm_num)

/-- The per-group loop of `SpecSim2d.grid_par_ensemble_helper` acting on
the geostruct state `(nugget, contribution)`: each group rescales the
structure to its bounds-implied variance (`contribution = var * new_var`,
`nugget = var * new_nug`), reinitializes, and draws.  A group is modelled
by its variance and whether its draw succeeds (drawing consumes external
randomness); a failed draw propagates the exception with the state as
mutated so far. -/
def gridParLoop (new_nug new_var : ℝ) :
    List (ℝ × Bool) → ℝ × ℝ → (Except Unit Unit) × (ℝ × ℝ)
  | [], st => (Except.ok (), st)
  | (v, dok) :: rest, _ =>
      if dok then gridParLoop new_nug new_var rest (v * new_nug, v * new_var)
      else (Except.error (), (v * new_nug, v * new_var))

/-- The scaling-to-unit-sill step at the top of
`grid_par_ensemble_helper`: when `sill != 1.0` the nugget and the single
variogram's contribution are divided by their total. -/
noncomputable def gridParScaled (org_nug org_var : ℝ) : ℝ × ℝ :=
  if org_nug + org_var = 1 then (org_nug, org_var)
  else (org_nug / (org_var + org_nug), org_var / (org_var + org_nug))

/-- `SpecSim2d.grid_par_ensemble_helper` reduced to its effect on the
geostruct state `(nugget, contribution)`: scale to unit sill, loop over the
groups, and — only after the loop finishes normally — restore the original
nugget and contribution.  There is no try/finally in the source, so an
exception raised inside the loop leaves the mutated state in place. -/
noncomputable def gridParEnsembleHelper (org_nug org_var : ℝ)
    (groups : List (ℝ × Bool)) : (Except Unit Unit) × (ℝ × ℝ) :=
  match gridParLoop (gridParScaled org_nug org_var).1 (gridParScaled org_nug org_var).2
      groups (gridParScaled org_nug org_var) with
  | (Except.ok _, _) => (Except.ok (), (org_nug, org_var))
  | (Except.error e, st) => (Except.error e, st)

/-- C3 (evaluation of the code at the failing input): starting from
`nugget = 0`, `contribution = 2`, a single group with bounds-implied
variance `9` whose draw raises leaves the geostruct at `(0, 9)` instead of
restoring `(0, 2)`; the same run with a successful draw does restore. -/
theorem grid_par_ensemble_helper_no_restore_on_failure :
    gridParEnsembleHelper 0 2 [(9, false)] = (Except.error (), (0, 9))
    ∧ gridParEnsembleHelper 0 2 [(9, true)] = (Except.ok (), (0, 2))
    ∧ (((0:ℝ), (9:ℝ)) ≠ ((0:ℝ), (2:ℝ))) := by
  have hsc : gridParScaled 0 2 = (0, 1) := by
    unfold gridParScaled
    rw [if_neg (by norm_num)]
    norm_num
  refine ⟨?_, ?_, by norm_num⟩
  · unfold gridParEnsembleHelper
    rw [hsc]
    norm_num [gridParLoop]
  · unfold gridParEnsembleHelper
    rw [hsc]
    norm_num [gridParLoop]

/-- `point_data.drop_duplicates(subset=["name"])`: keep the first row for
each name. -/
def dropDupNames : List PointRec → List PointRec
  | [] => []
  | p :: ps => p :: dropDupNames (ps.filter (fun q => q.name != p.name))
termination_by l => l.length
decreasing_by
  simp_wf
  exact Nat.lt_succ_of_le (List.length_filter_le _ _)

/-- Rows surviving `dropDupNames` come from the input, and the surviving
names are distinct. -/
theorem dropDupNames_key (n : ℕ) : ∀ l : List PointRec, l.length ≤ n →
    (∀ q ∈ dropDupNames l, q ∈ l) ∧
      ((dropDupNames l).map (fun p => p.name)).Nodup := by
  induction n with
  | zero =>
      intro l hl
      cases l with
      | nil => simp [dropDupNames]
      | cons p ps => cases hl
  | succ n ih =>
      intro l hl
      cases l with
      | nil => simp [dropDupNames]
      | cons p ps =>
          rw [dropDupNames]
          have hfl : (ps.filter (fun q => q.name != p.name)).length ≤ n :=
            le_trans (List.length_filter_le _ _) (Nat.le_of_succ_le_succ hl)
          obtain ⟨ihmem, ihnodup⟩ := ih _ hfl
          constructor
          · intro q hq
            rcases List.mem_cons.mp hq with rfl | hq2
            · exact List.mem_cons_self _ _
            · exact List.mem_cons_of_mem _ (List.mem_of_mem_filter (ihmem q hq2))
          · rw [List.map_cons, List.nodup_cons]
            refine ⟨?_, ihnodup⟩
            intro hmem
            obtain ⟨q, hq, hqname⟩ := List.mem_map.mp hmem
            have hqf := List.of_mem_filter (ihmem q hq)
            rw [hqname] at hqf
            simp at hqf

/-- On distinct names `dropDupNames` is the identity. -/
theorem dropDupNames_eq_self (n : ℕ) : ∀ l : List PointRec, l.length ≤ n →
    (l.map (fun p => p.name)).Nodup → dropDupNames l = l := by
  induction n with
  | zero =>
      intro l hl _
      cases l with
      | nil => rw [dropDupNames]
      | cons p ps => cases hl
  | succ n ih =>
      intro l hl hnd
      cases l with
      | nil => rw [dropDupNames]
      | cons p ps =>
          rw [dropDupNames]
          rw [List.map_cons, List.nodup_cons] at hnd
          have hfilter : ps.filter (fun q => q.name != p.name) = ps := by
            apply List.filter_eq_self.mpr
            intro q hq
            simp only [bne_iff_ne, ne_eq, decide_eq_true_eq]
            intro he
            exact hnd.1 (List.mem_map.mpr ⟨q, hq, he⟩)
          rw [hfilter]
          rw [ih ps (Nat.le_of_succ_le_succ hl) hnd.2]

/-- The duplicate handling of `OrdinaryKrige.__init__`: with all names
unique the points are taken as given; otherwise a nonzero per-name spread
of x (then of y) raises, and otherwise the duplicates are dropped keeping
the first row per name.  (Both raising paths are exceptions in the source;
the x/y branches even hit a `NameError` on the undefined `uname` while
formatting the intended message, which still aborts construction.) -/
noncomputable def okInitPoints (point_data : List PointRec) :
    Except Unit (List PointRec) :=
  if (point_data.map (fun p => p.name)).Nodup then Except.ok point_data
  else if ∃ p ∈ point_data, ∃ q ∈ point_data, p.name = q.name ∧ p.x ≠ q.x then
    Except.error ()
  else if ∃ p ∈ point_data, ∃ q ∈ point_data, p.name = q.name ∧ p.y ≠ q.y then
    Except.error ()
  else Except.ok (dropDupNames point_data)

/-- C5: construction fails exactly when two rows share a name but differ in
x or y; when all rows sharing a name agree on both coordinates, the
duplicates collapse to a single point (first occurrence kept, resulting
names distinct) and construction succeeds. -/
theorem ordinary_krige_init_duplicates (pd : List PointRec) :
    (okInitPoints pd = Except.error () ↔
      ∃ p ∈ pd, ∃ q ∈ pd, p.name = q.name ∧ (p.x ≠ q.x ∨ p.y ≠ q.y))
    ∧ ((∀ p ∈ pd, ∀ q ∈ pd, p.name = q.name → p.x = q.x ∧ p.y = q.y) →
        okInitPoints pd = Except.ok (dropDupNames pd)
        ∧ ((dropDupNames pd).map (fun p => p.name)).Nodup) := by
  by_cases hnd : (pd.map (fun p => p.name)).Nodup
  · have hinj : ∀ p ∈ pd, ∀ q ∈ pd, p.name = q.name → p = q :=
      fun p hp q hq he => List.inj_on_of_nodup_map hnd hp hq he
    constructor
    · constructor
      · intro he
        rw [okInitPoints, if_pos hnd] at he
        cases he
      · rintro ⟨p, hp, q, hq, hname, hxy⟩
        have hpq := hinj p hp q hq hname
        rw [hpq] at hxy
        rcases hxy with h | h <;> exact absurd rfl h
    · intro _
      rw [okInitPoints, if_pos hnd, dropDupNames_eq_self pd.length pd le_rfl hnd]
      exact ⟨rfl, hnd⟩
  · rw [okInitPoints, if_neg hnd]
    by_cases hx : ∃ p ∈ pd, ∃ q ∈ pd, p.name = q.name ∧ p.x ≠ q.x
    · rw [if_pos hx]
      constructor
      · constructor
        · intro _
          obtain ⟨p, hp, q, hq, hn, hne⟩ := hx
          exact ⟨p, hp, q, hq, hn, Or.inl hne⟩
        · intro _
          rfl
      · intro hcons
        obtain ⟨p, hp, q, hq, hn, hne⟩ := hx
        exact absurd (hcons p hp q hq hn).1 hne
    · rw [if_neg hx]
      by_cases hy : ∃ p ∈ pd, ∃ q ∈ pd, p.name = q.name ∧ p.y ≠ q.y
      · rw [if_pos hy]
        constructor
        · constructor
          · intro _
            obtain ⟨p, hp, q, hq, hn, hne⟩ := hy
            exact ⟨p, hp, q, hq, hn, Or.inr hne⟩
          · intro _
            rfl
        · intro hcons
          obtain ⟨p, hp, q, hq, hn, hne⟩ := hy
          exact absurd (hcons p hp q hq hn).2 hne
      · rw [if_neg hy]
        constructor
        · constructor
          · intro he
            cases he
          · rintro ⟨p, hp, q, hq, hn, hxy⟩
            rcases hxy with h | h
            · exact absurd ⟨p, hp, q, hq, hn, h⟩ hx
            · exact absurd ⟨p, hp, q, hq, hn, h⟩ hy
        · intro _
          exact ⟨rfl, (dropDupNames_key pd.length pd le_rfl).2⟩

/-- A concrete duplicated point row. -/
noncomputable def pdupA : PointRec := ⟨"a", 1, 2, 0⟩

/-- Witness for C5: two identical rows collapse and construction
succeeds. -/
theorem ordinary_krige_init_duplicates_witness :
    okInitPoints [pdupA, pdupA] = Except.ok (dropDupNames [pdupA, pdupA])
    ∧ ((dropDupNames [pdupA, pdupA]).map (fun p => p.name)).Nodup :=
  (ordinary_krige_init_duplicates [pdupA, pdupA]).2 (by
    intro p hp q hq _
    have hp2 : p = pdupA := by
      rcases List.mem_cons.mp hp with h | h
      · exact h
      · simpa using h
    have hq2 : q = pdupA := by
      rcases List.mem_cons.mp hq with h | h
      · exact h
      · simpa using h
    rw [hp2, hq2]
    exact ⟨rfl, rfl⟩)
